import Mathlib

/-!
# The RPC commands table of trex-core

A shallow embedding of `src/rpc-server/src/trex_rpc_cmds_table.cpp`:
the class `TrexRpcCommandsTable` with its constructor, its destructor,
`lookup` and `register_command`, over a model of the
`std::unordered_map<std::string, TrexRpcCommand *>` member `m_rpc_cmd_table`.
-/

/-! ## Data model -/

/-- A command object on the heap. `addr` is the address of the object (its
identity), `m_name` is the name given to it when it was built. -/
structure TrexRpcCommand where
  addr : Nat
  m_name : String
deriving DecidableEq, Repr

/-- The accessor `command->get_name()`. -/
def TrexRpcCommand.get_name (command : TrexRpcCommand) : String :=
  command.m_name

/-- A `TrexRpcCommand *`: `none` is the null pointer, `some c` points to `c`. -/
abbrev CommandPtr := Option TrexRpcCommand

/-- The member `m_rpc_cmd_table`: the entries of the unordered map, as pairs of
key and mapped pointer. The order of the entries stands for the (unspecified)
iteration order; an entry for a new key is put at the end. -/
abbrev UnorderedMap := List (String × CommandPtr)

/-- The effect of `operator[]` on the map: when no entry has the key, an entry
with a value-initialised mapped value (the null pointer) is added; otherwise the
map is left as it is. -/
def UnorderedMap.subscript : UnorderedMap → String → UnorderedMap
  | [], key => [(key, none)]
  | (k, v) :: rest, key =>
    if k = key then (k, v) :: rest else (k, v) :: UnorderedMap.subscript rest key

/-- Reading through the reference that `operator[]` returned for `key`. -/
def UnorderedMap.deref : UnorderedMap → String → CommandPtr
  | [], _ => none
  | (k, v) :: rest, key => if k = key then v else UnorderedMap.deref rest key

/-- Assigning through the reference that `operator[]` returned for `key`. -/
def UnorderedMap.store : UnorderedMap → String → CommandPtr → UnorderedMap
  | [], _, _ => []
  | (k, v) :: rest, key, p =>
    if k = key then (k, p) :: rest else (k, v) :: UnorderedMap.store rest key p

/-- The state of a `TrexRpcCommandsTable` object. -/
structure TrexRpcCommandsTable where
  m_rpc_cmd_table : UnorderedMap
deriving DecidableEq, Repr

/-! ## Operations -/

/-- `TrexRpcCommandsTable::register_command`:
`m_rpc_cmd_table[command->get_name()] = command;`.
The argument is dereferenced unconditionally, so it is a pointer to an object. -/
def TrexRpcCommandsTable.register_command (self : TrexRpcCommandsTable)
    (command : TrexRpcCommand) : TrexRpcCommandsTable :=
  { m_rpc_cmd_table :=
      (self.m_rpc_cmd_table.subscript command.get_name).store command.get_name (some command) }

/-- `TrexRpcCommandsTable::lookup`: `return m_rpc_cmd_table[method_name];`.
Gives the returned pointer and the table after the call. -/
def TrexRpcCommandsTable.lookup (self : TrexRpcCommandsTable)
    (method_name : String) : CommandPtr × TrexRpcCommandsTable :=
  let m := self.m_rpc_cmd_table.subscript method_name
  (m.deref method_name, { m_rpc_cmd_table := m })

/-- The constructor `TrexRpcCommandsTable::TrexRpcCommandsTable()` (named `ctor`
here, since the name of the class is taken by the type of its states). The two
arguments are the objects made by `new TestRpcAddMethod()` and
`new TestRpcSubMethod()`; these classes are declared in
`commands/trex_rpc_cmds.h`. -/
def TrexRpcCommandsTable.ctor (add sub : TrexRpcCommand) :
    TrexRpcCommandsTable :=
  let self : TrexRpcCommandsTable := { m_rpc_cmd_table := [] }
  let self := self.register_command add
  self.register_command sub

/-- The destructor `TrexRpcCommandsTable::~TrexRpcCommandsTable()`: the pointers
handed to `delete`, one per entry of the map, in iteration order. -/
def TrexRpcCommandsTable.destructor (self : TrexRpcCommandsTable) : List CommandPtr :=
  self.m_rpc_cmd_table.map (fun cmd => cmd.2)

/-- The objects released by a sequence of `delete` calls: `delete` of a null
pointer does nothing, `delete` of a pointer to an object releases that object. -/
def released (deleted : List CommandPtr) : List TrexRpcCommand :=
  deleted.filterMap id

/-! ## Histories of calls -/

/-- A call made by a client on a constructed table. -/
inductive Call where
  | register_command (command : TrexRpcCommand)
  | lookup (method_name : String)
deriving DecidableEq, Repr

/-- The table after one call. -/
def TrexRpcCommandsTable.step (self : TrexRpcCommandsTable) : Call → TrexRpcCommandsTable
  | Call.register_command command => self.register_command command
  | Call.lookup method_name => (self.lookup method_name).2

/-- The table after a sequence of calls, the first call first. -/
def TrexRpcCommandsTable.run (self : TrexRpcCommandsTable) (calls : List Call) :
    TrexRpcCommandsTable :=
  calls.foldl TrexRpcCommandsTable.step self

/-- The commands handed to `register_command` in a sequence of calls. -/
def registered : List Call → List TrexRpcCommand
  | [] => []
  | Call.register_command command :: calls => command :: registered calls
  | Call.lookup _ :: calls => registered calls

/-- The table reached from construction with the baseline objects `add` and
`sub` by a sequence of calls. -/
def reach (add sub : TrexRpcCommand) (calls : List Call) : TrexRpcCommandsTable :=
  (TrexRpcCommandsTable.ctor add sub).run calls

/-! ## Lemmas on the map -/

theorem UnorderedMap.deref_subscript (m : UnorderedMap) (key key2 : String) :
    (m.subscript key).deref key2 = m.deref key2 := by
  induction m with
  | nil =>
    by_cases h : key = key2 <;> simp [UnorderedMap.subscript, UnorderedMap.deref, h]
  | cons e rest ih =>
    obtain ⟨k, v⟩ := e
    by_cases h : k = key
    · simp [UnorderedMap.subscript, h]
    · by_cases h2 : k = key2
      · subst h2
        simp [UnorderedMap.subscript, UnorderedMap.deref, h]
      · simp [UnorderedMap.subscript, UnorderedMap.deref, h, h2, ih]

theorem UnorderedMap.deref_store_subscript (m : UnorderedMap) (key key2 : String)
    (p : CommandPtr) :
    ((m.subscript key).store key p).deref key2 = if key2 = key then p else m.deref key2 := by
  induction m with
  | nil =>
    by_cases h : key = key2
    · simp [UnorderedMap.subscript, UnorderedMap.store, UnorderedMap.deref, h]
    · have h3 : ¬ key2 = key := fun e => h e.symm
      simp [UnorderedMap.subscript, UnorderedMap.store, UnorderedMap.deref, h, h3]
  | cons e rest ih =>
    obtain ⟨k, v⟩ := e
    by_cases h : k = key
    · subst h
      by_cases h2 : k = key2
      · simp [UnorderedMap.subscript, UnorderedMap.store, UnorderedMap.deref, h2]
      · have h3 : ¬ key2 = k := fun e => h2 e.symm
        simp [UnorderedMap.subscript, UnorderedMap.store, UnorderedMap.deref, h2, h3]
    · by_cases h2 : k = key2
      · subst h2
        simp [UnorderedMap.subscript, UnorderedMap.store, UnorderedMap.deref, h]
      · simp [UnorderedMap.subscript, UnorderedMap.store, UnorderedMap.deref, h, h2, ih]

/-- The pointer that `lookup` returns is the one the map holds for the name. -/
theorem lookup_fst (t : TrexRpcCommandsTable) (n : String) :
    (t.lookup n).1 = t.m_rpc_cmd_table.deref n := by
  simp [TrexRpcCommandsTable.lookup, UnorderedMap.deref_subscript]

/-- What `lookup` returns after a `register_command`. -/
theorem lookup_register (t : TrexRpcCommandsTable) (h : TrexRpcCommand) (m : String) :
    ((t.register_command h).lookup m).1 =
      if m = h.get_name then some h else (t.lookup m).1 := by
  rw [lookup_fst, lookup_fst]
  simp [TrexRpcCommandsTable.register_command, UnorderedMap.deref_store_subscript]

/-! ## Claims -/

/-- C1: for every table state `t` and every handler `h` whose name is `n`,
`lookup(n)` right after `register_command(h)` returns exactly `h`. -/
theorem lookup_after_register_returns_handler (t : TrexRpcCommandsTable)
    (h : TrexRpcCommand) (n : String) (hn : h.get_name = n) :
    ((t.register_command h).lookup n).1 = some h := by
  rw [lookup_register, if_pos hn.symm]

theorem lookup_after_register_returns_handler_witness :
    (TrexRpcCommand.get_name ⟨7, "echo"⟩ = "echo") ∧
    (((TrexRpcCommandsTable.mk [("missing", none)]).register_command ⟨7, "echo"⟩).lookup
      "echo").1 = some ⟨7, "echo"⟩ :=
  ⟨rfl, lookup_after_register_returns_handler _ _ _ rfl⟩

/-! ## Further lemmas -/

/-- A `lookup` in between does not change what a later `lookup` returns. -/
theorem lookup_lookup (t : TrexRpcCommandsTable) (n m : String) :
    ((t.lookup n).2.lookup m).1 = (t.lookup m).1 := by
  rw [lookup_fst, lookup_fst]
  simp [TrexRpcCommandsTable.lookup, UnorderedMap.deref_subscript]

/-- A table with no entry answers every `lookup` with the null pointer. -/
theorem lookup_empty (m : String) :
    ((TrexRpcCommandsTable.mk []).lookup m).1 = none := by
  simp [lookup_fst, UnorderedMap.deref]

theorem run_nil (t : TrexRpcCommandsTable) : t.run [] = t := rfl

theorem run_cons (t : TrexRpcCommandsTable) (c : Call) (calls : List Call) :
    t.run (c :: calls) = (t.step c).run calls := rfl

/-- Calls that register no command of name `n` leave the answer of `lookup(n)`
as it was. -/
theorem lookup_run_of_not_registered (calls : List Call) (t : TrexRpcCommandsTable)
    (n : String) (hreg : ∀ h ∈ registered calls, h.get_name ≠ n) :
    ((t.run calls).lookup n).1 = (t.lookup n).1 := by
  induction calls generalizing t with
  | nil => rfl
  | cons c calls ih =>
    rw [run_cons]
    cases c with
    | register_command h =>
      have hh : h.get_name ≠ n := hreg h (by simp [registered])
      have hrest : ∀ g ∈ registered calls, g.get_name ≠ n :=
        fun g hg => hreg g (by simp [registered, hg])
      rw [ih _ hrest]
      simp only [TrexRpcCommandsTable.step]
      rw [lookup_register, if_neg (fun e => hh e.symm)]
    | lookup k =>
      have hrest : ∀ g ∈ registered calls, g.get_name ≠ n :=
        fun g hg => hreg g (by simpa [registered] using hg)
      rw [ih _ hrest]
      simp only [TrexRpcCommandsTable.step]
      rw [lookup_lookup]

/-- A command that `lookup` returns after a sequence of calls was returned for
the same name before the calls, or was registered by one of them. -/
theorem lookup_run_some (calls : List Call) (t : TrexRpcCommandsTable)
    (m : String) (h : TrexRpcCommand) (hl : ((t.run calls).lookup m).1 = some h) :
    (t.lookup m).1 = some h ∨ h ∈ registered calls := by
  induction calls generalizing t with
  | nil => exact Or.inl hl
  | cons c calls ih =>
    rw [run_cons] at hl
    cases c with
    | register_command g =>
      rcases ih _ hl with h1 | h1
      · simp only [TrexRpcCommandsTable.step] at h1
        rw [lookup_register] at h1
        by_cases hm : m = g.get_name
        · rw [if_pos hm] at h1
          right
          simp [registered, Option.some.inj h1]
        · rw [if_neg hm] at h1
          exact Or.inl h1
      · right
        simp [registered, h1]
    | lookup k =>
      rcases ih _ hl with h1 | h1
      · simp only [TrexRpcCommandsTable.step] at h1
        rw [lookup_lookup] at h1
        exact Or.inl h1
      · right
        simpa [registered] using h1

/-- What `lookup` returns on a freshly constructed table. -/
theorem lookup_ctor (add sub : TrexRpcCommand) (m : String) :
    ((TrexRpcCommandsTable.ctor add sub).lookup m).1 =
      if m = sub.get_name then some sub else if m = add.get_name then some add else none := by
  simp only [TrexRpcCommandsTable.ctor]
  rw [lookup_register, lookup_register, lookup_empty]

/-! ## Claims, continued -/

/-- C2: in every state reached from construction by `register_command` and
`lookup` calls, `lookup(n)` of a name `n` that is neither a baseline name nor
the name of a registered command returns the null pointer. -/
theorem lookup_never_registered_returns_null (add sub : TrexRpcCommand)
    (calls : List Call) (n : String)
    (hadd : add.get_name ≠ n) (hsub : sub.get_name ≠ n)
    (hreg : ∀ h ∈ registered calls, h.get_name ≠ n) :
    ((reach add sub calls).lookup n).1 = none := by
  unfold reach
  rw [lookup_run_of_not_registered calls _ n hreg, lookup_ctor,
    if_neg (fun e => hsub e.symm), if_neg (fun e => hadd e.symm)]

theorem lookup_never_registered_returns_null_witness :
    ((reach ⟨1, "test_rpc_add"⟩ ⟨2, "test_rpc_sub"⟩
      [Call.lookup "nope", Call.register_command ⟨3, "echo"⟩, Call.lookup "missing"]).lookup
        "missing").1 = none :=
  lookup_never_registered_returns_null ⟨1, "test_rpc_add"⟩ ⟨2, "test_rpc_sub"⟩
    [Call.lookup "nope", Call.register_command ⟨3, "echo"⟩, Call.lookup "missing"] "missing"
    (by decide) (by decide) (by decide)

/-- C3: for every table state and every two distinct handlers `h1`, `h2` of the
same name `n`, after `register_command(h1)` and then `register_command(h2)`,
`lookup(n)` returns `h2` and not `h1`. -/
theorem last_registration_wins (t : TrexRpcCommandsTable) (h1 h2 : TrexRpcCommand)
    (n : String) (hne : h1 ≠ h2) (hn1 : h1.get_name = n) (hn2 : h2.get_name = n) :
    (((t.register_command h1).register_command h2).lookup n).1 = some h2 ∧
    (((t.register_command h1).register_command h2).lookup n).1 ≠ some h1 := by
  subst hn1
  have hl : (((t.register_command h1).register_command h2).lookup h1.get_name).1 =
      some h2 := by
    rw [lookup_register, if_pos hn2.symm]
  refine ⟨hl, ?_⟩
  rw [hl]
  intro e
  exact hne (Option.some.inj e).symm

theorem last_registration_wins_witness :
    ((((TrexRpcCommandsTable.ctor ⟨1, "test_rpc_add"⟩ ⟨2, "test_rpc_sub"⟩).register_command
        ⟨3, "dup"⟩).register_command ⟨4, "dup"⟩).lookup "dup").1 = some ⟨4, "dup"⟩ ∧
    ((((TrexRpcCommandsTable.ctor ⟨1, "test_rpc_add"⟩ ⟨2, "test_rpc_sub"⟩).register_command
        ⟨3, "dup"⟩).register_command ⟨4, "dup"⟩).lookup "dup").1 ≠ some ⟨3, "dup"⟩ :=
  last_registration_wins (TrexRpcCommandsTable.ctor ⟨1, "test_rpc_add"⟩ ⟨2, "test_rpc_sub"⟩)
    ⟨3, "dup"⟩ ⟨4, "dup"⟩ "dup" (by decide) rfl rfl

/-- C4: on a freshly constructed table, the baseline names being distinct,
`lookup` of the name of the add test command returns the `TestRpcAddMethod`
object made by the constructor, and `lookup` of the name of the sub test command
returns the `TestRpcSubMethod` object made by the constructor. -/
theorem baseline_present_after_construction (add sub : TrexRpcCommand)
    (hdist : add.get_name ≠ sub.get_name) :
    ((TrexRpcCommandsTable.ctor add sub).lookup add.get_name).1 = some add ∧
    ((TrexRpcCommandsTable.ctor add sub).lookup sub.get_name).1 = some sub := by
  constructor
  · rw [lookup_ctor, if_neg hdist, if_pos rfl]
  · rw [lookup_ctor, if_pos rfl]

theorem baseline_present_after_construction_witness :
    ((TrexRpcCommandsTable.ctor ⟨1, "test_rpc_add"⟩ ⟨2, "test_rpc_sub"⟩).lookup
      "test_rpc_add").1 = some ⟨1, "test_rpc_add"⟩ ∧
    ((TrexRpcCommandsTable.ctor ⟨1, "test_rpc_add"⟩ ⟨2, "test_rpc_sub"⟩).lookup
      "test_rpc_sub").1 = some ⟨2, "test_rpc_sub"⟩ :=
  baseline_present_after_construction ⟨1, "test_rpc_add"⟩ ⟨2, "test_rpc_sub"⟩ (by decide)

/-- C5 (the code at a failing input): two distinct commands `h1`, `h2` of the same
name are registered on a constructed table; the destructor releases the two
baseline objects and `h2`, and never releases `h1`, which was registered. -/
theorem duplicate_registration_leaks_first_handler :
    List.Perm
      (released (reach ⟨1, "test_rpc_add"⟩ ⟨2, "test_rpc_sub"⟩
        [Call.register_command ⟨3, "dup"⟩, Call.register_command ⟨4, "dup"⟩]).destructor)
      [⟨1, "test_rpc_add"⟩, ⟨2, "test_rpc_sub"⟩, ⟨4, "dup"⟩] ∧
    (⟨3, "dup"⟩ : TrexRpcCommand) ∈
      registered [Call.register_command ⟨3, "dup"⟩, Call.register_command ⟨4, "dup"⟩] ∧
    (released (reach ⟨1, "test_rpc_add"⟩ ⟨2, "test_rpc_sub"⟩
        [Call.register_command ⟨3, "dup"⟩, Call.register_command ⟨4, "dup"⟩]).destructor).count
      ⟨3, "dup"⟩ = 0 := by
  decide

/-- C7: `register_command(h)` changes only the entry keyed by the name `n` of
`h`: for every name `m` different from `n`, `lookup(m)` after the registration
returns what `lookup(m)` returns before it. -/
theorem register_command_frame (t : TrexRpcCommandsTable) (h : TrexRpcCommand)
    (n m : String) (hn : h.get_name = n) (hm : m ≠ n) :
    ((t.register_command h).lookup m).1 = (t.lookup m).1 := by
  subst hn
  rw [lookup_register, if_neg hm]

theorem register_command_frame_witness :
    (((TrexRpcCommandsTable.ctor ⟨1, "test_rpc_add"⟩ ⟨2, "test_rpc_sub"⟩).register_command
        ⟨3, "echo"⟩).lookup "test_rpc_add").1 =
      ((TrexRpcCommandsTable.ctor ⟨1, "test_rpc_add"⟩ ⟨2, "test_rpc_sub"⟩).lookup
        "test_rpc_add").1 :=
  register_command_frame (TrexRpcCommandsTable.ctor ⟨1, "test_rpc_add"⟩ ⟨2, "test_rpc_sub"⟩)
    ⟨3, "echo"⟩ "echo" "test_rpc_add" rfl (by decide)

/-- C10: two distinct handlers `h1` then `h2` of the same name are registered on
a table reached from construction, `h1` being neither a baseline object nor
registered by an earlier call; afterwards no name `m` makes `lookup(m)` return
`h1`. -/
theorem overwritten_handler_unreachable (add sub : TrexRpcCommand) (calls : List Call)
    (h1 h2 : TrexRpcCommand) (hne : h1 ≠ h2) (hname : h1.get_name = h2.get_name)
    (hadd : h1 ≠ add) (hsub : h1 ≠ sub) (hreg : h1 ∉ registered calls) (m : String) :
    ((((reach add sub calls).register_command h1).register_command h2).lookup m).1
      ≠ some h1 := by
  intro hl
  rw [lookup_register] at hl
  by_cases hm : m = h2.get_name
  · rw [if_pos hm] at hl
    exact hne (Option.some.inj hl).symm
  · rw [if_neg hm, lookup_register, if_neg (by rw [hname]; exact hm)] at hl
    unfold reach at hl
    rcases lookup_run_some calls _ m h1 hl with h3 | h3
    · rw [lookup_ctor] at h3
      split_ifs at h3
      · exact hsub (Option.some.inj h3).symm
      · exact hadd (Option.some.inj h3).symm
    · exact hreg h3

theorem overwritten_handler_unreachable_witness :
    ((((reach ⟨1, "test_rpc_add"⟩ ⟨2, "test_rpc_sub"⟩
        [Call.lookup "dup", Call.register_command ⟨5, "echo"⟩]).register_command
          ⟨3, "dup"⟩).register_command ⟨4, "dup"⟩).lookup "dup").1 ≠ some ⟨3, "dup"⟩ :=
  overwritten_handler_unreachable ⟨1, "test_rpc_add"⟩ ⟨2, "test_rpc_sub"⟩
    [Call.lookup "dup", Call.register_command ⟨5, "echo"⟩] ⟨3, "dup"⟩ ⟨4, "dup"⟩
    (by decide) rfl (by decide) (by decide) (by decide) "dup"

/-! ## Lemmas on the entries of the map -/

theorem UnorderedMap.assign_nil (key : String) (p : CommandPtr) :
    UnorderedMap.store (UnorderedMap.subscript [] key) key p = [(key, p)] := by
  simp [UnorderedMap.subscript, UnorderedMap.store]

theorem UnorderedMap.assign_cons (k key : String) (v p : CommandPtr) (rest : UnorderedMap) :
    UnorderedMap.store (UnorderedMap.subscript ((k, v) :: rest) key) key p =
      if k = key then (k, p) :: rest
      else (k, v) :: UnorderedMap.store (UnorderedMap.subscript rest key) key p := by
  by_cases h : k = key <;> simp [UnorderedMap.subscript, UnorderedMap.store, h]

/-- Assignments through `operator[]` at two different keys give the same entries
in either order. -/
theorem UnorderedMap.assign_comm (m : UnorderedMap) (k1 k2 : String) (p1 p2 : CommandPtr)
    (hk : k1 ≠ k2) :
    List.Perm
      (UnorderedMap.store (UnorderedMap.subscript
        (UnorderedMap.store (UnorderedMap.subscript m k1) k1 p1) k2) k2 p2)
      (UnorderedMap.store (UnorderedMap.subscript
        (UnorderedMap.store (UnorderedMap.subscript m k2) k2 p2) k1) k1 p1) := by
  induction m with
  | nil =>
    rw [UnorderedMap.assign_nil, UnorderedMap.assign_nil, UnorderedMap.assign_cons,
      UnorderedMap.assign_cons, if_neg hk, if_neg (fun e => hk e.symm),
      UnorderedMap.assign_nil, UnorderedMap.assign_nil]
    exact List.Perm.swap _ _ _
  | cons e rest ih =>
    obtain ⟨k, v⟩ := e
    by_cases h1 : k = k1
    · subst h1
      rw [UnorderedMap.assign_cons k k, if_pos rfl, UnorderedMap.assign_cons k k2, if_neg hk,
        UnorderedMap.assign_cons k k2, if_neg hk, UnorderedMap.assign_cons k k, if_pos rfl]
    · by_cases h2 : k = k2
      · subst h2
        rw [UnorderedMap.assign_cons k k1, if_neg h1, UnorderedMap.assign_cons k k, if_pos rfl,
          UnorderedMap.assign_cons k k, if_pos rfl, UnorderedMap.assign_cons k k1, if_neg h1]
      · rw [UnorderedMap.assign_cons k k1, if_neg h1, UnorderedMap.assign_cons k k2, if_neg h2,
          UnorderedMap.assign_cons k k2, if_neg h2, UnorderedMap.assign_cons k k1, if_neg h1]
        exact List.Perm.cons _ ih

/-- The keys after `operator[]`. -/
theorem UnorderedMap.mem_subscript (m : UnorderedMap) (key k : String) (p : CommandPtr)
    (h : (k, p) ∈ m.subscript key) : (k, p) ∈ m ∨ (k = key ∧ p = none) := by
  induction m with
  | nil => simpa [UnorderedMap.subscript] using h
  | cons e rest ih =>
    obtain ⟨k0, v0⟩ := e
    by_cases h0 : k0 = key
    · simp only [UnorderedMap.subscript, if_pos h0] at h
      exact Or.inl h
    · simp only [UnorderedMap.subscript, if_neg h0, List.mem_cons] at h
      rcases h with h | h
      · exact Or.inl (by simp [h])
      · rcases ih h with h | h
        · exact Or.inl (by simp [h])
        · exact Or.inr h

/-- The entries after an assignment through `operator[]`. -/
theorem UnorderedMap.mem_store (m : UnorderedMap) (key k : String) (p q : CommandPtr)
    (h : (k, q) ∈ m.store key p) : (k, q) ∈ m ∨ (k = key ∧ q = p) := by
  induction m with
  | nil => simp [UnorderedMap.store] at h
  | cons e rest ih =>
    obtain ⟨k0, v0⟩ := e
    by_cases h0 : k0 = key
    · simp only [UnorderedMap.store, if_pos h0, List.mem_cons] at h
      rcases h with h | h
      · right
        simp only [Prod.mk.injEq] at h
        exact ⟨h.1.trans h0, h.2⟩
      · exact Or.inl (by simp [h])
    · simp only [UnorderedMap.store, if_neg h0, List.mem_cons] at h
      rcases h with h | h
      · exact Or.inl (by simp [h])
      · rcases ih h with h | h
        · exact Or.inl (by simp [h])
        · exact Or.inr h

theorem UnorderedMap.keys_subscript (m : UnorderedMap) (key : String) :
    (m.subscript key).map Prod.fst =
      if key ∈ m.map Prod.fst then m.map Prod.fst else m.map Prod.fst ++ [key] := by
  induction m with
  | nil => simp [UnorderedMap.subscript]
  | cons e rest ih =>
    obtain ⟨k0, v0⟩ := e
    by_cases h0 : k0 = key
    · simp [UnorderedMap.subscript, h0]
    · have h1 : ¬ key = k0 := fun e => h0 e.symm
      simp only [UnorderedMap.subscript, if_neg h0, List.map_cons, ih, List.mem_cons, h1,
        false_or]
      split_ifs <;> simp

theorem UnorderedMap.keys_store (m : UnorderedMap) (key : String) (p : CommandPtr) :
    (m.store key p).map Prod.fst = m.map Prod.fst := by
  induction m with
  | nil => simp [UnorderedMap.store]
  | cons e rest ih =>
    obtain ⟨k0, v0⟩ := e
    by_cases h0 : k0 = key <;> simp [UnorderedMap.store, h0, ih]

theorem UnorderedMap.nodup_keys_subscript (m : UnorderedMap) (key : String)
    (h : (m.map Prod.fst).Nodup) : ((m.subscript key).map Prod.fst).Nodup := by
  rw [UnorderedMap.keys_subscript]
  split_ifs with hk
  · exact h
  · rw [List.nodup_append]
    refine ⟨h, List.nodup_singleton _, ?_⟩
    intro a ha hb
    simp only [List.mem_singleton] at hb
    subst hb
    exact hk ha

/-! ## The invariant of reachable tables -/

/-- One call keeps the keys of the map distinct and every command stored under
its own name. -/
theorem step_invariant (t : TrexRpcCommandsTable) (c : Call)
    (hk : (t.m_rpc_cmd_table.map Prod.fst).Nodup)
    (hn : ∀ k h, (k, some h) ∈ t.m_rpc_cmd_table → h.get_name = k) :
    ((t.step c).m_rpc_cmd_table.map Prod.fst).Nodup ∧
    ∀ k h, (k, some h) ∈ (t.step c).m_rpc_cmd_table → h.get_name = k := by
  cases c with
  | register_command g =>
    simp only [TrexRpcCommandsTable.step, TrexRpcCommandsTable.register_command]
    refine ⟨?_, ?_⟩
    · rw [UnorderedMap.keys_store]
      exact UnorderedMap.nodup_keys_subscript _ _ hk
    · intro k h hmem
      rcases UnorderedMap.mem_store _ _ _ _ _ hmem with h1 | ⟨h1, h2⟩
      · rcases UnorderedMap.mem_subscript _ _ _ _ h1 with h3 | ⟨_, h3⟩
        · exact hn k h h3
        · cases h3
      · cases h2
        exact h1.symm
  | lookup n =>
    simp only [TrexRpcCommandsTable.step, TrexRpcCommandsTable.lookup]
    refine ⟨UnorderedMap.nodup_keys_subscript _ _ hk, ?_⟩
    intro k h hmem
    rcases UnorderedMap.mem_subscript _ _ _ _ hmem with h3 | ⟨_, h3⟩
    · exact hn k h h3
    · cases h3

theorem run_invariant (calls : List Call) (t : TrexRpcCommandsTable)
    (hk : (t.m_rpc_cmd_table.map Prod.fst).Nodup)
    (hn : ∀ k h, (k, some h) ∈ t.m_rpc_cmd_table → h.get_name = k) :
    ((t.run calls).m_rpc_cmd_table.map Prod.fst).Nodup ∧
    ∀ k h, (k, some h) ∈ (t.run calls).m_rpc_cmd_table → h.get_name = k := by
  induction calls generalizing t with
  | nil => exact ⟨hk, hn⟩
  | cons c calls ih =>
    rw [run_cons]
    exact ih _ (step_invariant t c hk hn).1 (step_invariant t c hk hn).2

/-- In every table reached from construction the keys are distinct and every
command is stored under its own name. -/
theorem reach_invariant (add sub : TrexRpcCommand) (calls : List Call) :
    ((reach add sub calls).m_rpc_cmd_table.map Prod.fst).Nodup ∧
    ∀ k h, (k, some h) ∈ (reach add sub calls).m_rpc_cmd_table → h.get_name = k := by
  have h0 : ((TrexRpcCommandsTable.mk []).m_rpc_cmd_table.map Prod.fst).Nodup ∧
      ∀ k h, (k, some h) ∈ (TrexRpcCommandsTable.mk []).m_rpc_cmd_table → h.get_name = k := by
    simp
  have h1 := step_invariant _ (Call.register_command add) h0.1 h0.2
  have h2 := step_invariant _ (Call.register_command sub) h1.1 h1.2
  exact run_invariant calls _ h2.1 h2.2

/-- The objects released by the destructor are those some entry points to. -/
theorem mem_released_destructor (t : TrexRpcCommandsTable) (h : TrexRpcCommand) :
    h ∈ released t.destructor ↔ ∃ k, (k, some h) ∈ t.m_rpc_cmd_table := by
  simp [released, TrexRpcCommandsTable.destructor]

/-- With distinct keys, the map holds `h` for the key `k` exactly when it has the
entry `(k, h)`. -/
theorem UnorderedMap.deref_eq_some (m : UnorderedMap) (k : String) (h : TrexRpcCommand)
    (hk : (m.map Prod.fst).Nodup) : m.deref k = some h ↔ (k, some h) ∈ m := by
  induction m with
  | nil => simp [UnorderedMap.deref]
  | cons e rest ih =>
    obtain ⟨k0, v0⟩ := e
    simp only [List.map_cons, List.nodup_cons] at hk
    by_cases h0 : k0 = k
    · subst h0
      simp only [UnorderedMap.deref, if_pos, List.mem_cons, Prod.mk.injEq, true_and]
      constructor
      · intro e
        exact Or.inl e.symm
      · rintro (e | e)
        · exact e.symm
        · exact absurd (List.mem_map_of_mem Prod.fst e) hk.1
    · have h1 : ¬ k = k0 := fun e => h0 e.symm
      simp only [UnorderedMap.deref, if_neg h0, List.mem_cons, Prod.mk.injEq, h1, false_and,
        false_or]
      exact ih hk.2

/-- With distinct keys and every command stored under its own name, the
destructor releases no object twice. -/
theorem released_nodup (m : UnorderedMap) (hk : (m.map Prod.fst).Nodup)
    (hn : ∀ k h, (k, some h) ∈ m → h.get_name = k) :
    (released ((TrexRpcCommandsTable.mk m).destructor)).Nodup := by
  induction m with
  | nil => simp [released, TrexRpcCommandsTable.destructor]
  | cons e rest ih =>
    obtain ⟨k0, v0⟩ := e
    simp only [List.map_cons, List.nodup_cons] at hk
    have hrest := ih hk.2 (fun k h hm => hn k h (List.mem_cons_of_mem _ hm))
    cases v0 with
    | none =>
      simpa [released, TrexRpcCommandsTable.destructor] using hrest
    | some g =>
      have hg : g ∉ released ((TrexRpcCommandsTable.mk rest).destructor) := by
        intro hmem
        obtain ⟨k, hkm⟩ := (mem_released_destructor _ g).1 hmem
        have e1 : g.get_name = k := hn k g (List.mem_cons_of_mem _ hkm)
        have e2 : g.get_name = k0 := hn k0 g (List.mem_cons_self _ _)
        have : k0 ∈ rest.map Prod.fst := by
          rw [← e2, e1]
          exact List.mem_map_of_mem Prod.fst hkm
        exact hk.1 this
      have hcons : released ((TrexRpcCommandsTable.mk ((k0, some g) :: rest)).destructor) =
          g :: released ((TrexRpcCommandsTable.mk rest).destructor) := by
        simp [released, TrexRpcCommandsTable.destructor]
      rw [hcons]
      exact List.nodup_cons.2 ⟨hg, hrest⟩

/-- The destructor releases one object per entry that holds a non-null pointer. -/
theorem released_length (m : UnorderedMap) :
    (released ((TrexRpcCommandsTable.mk m).destructor)).length =
      (m.filter (fun cmd => cmd.2.isSome)).length := by
  induction m with
  | nil => rfl
  | cons e rest ih =>
    obtain ⟨k0, v0⟩ := e
    cases v0 <;>
      simp_all [released, TrexRpcCommandsTable.destructor, List.filter_cons]

/-! ## Claims on destruction and order -/

/-- C6: in every state reached from construction by `register_command` and
`lookup` calls, the destructor releases no object more than once, it releases
exactly the commands that some name maps to, each of them exactly once, and the
null entries left by missed lookups release nothing. -/
theorem destructor_releases_held_exactly_once (add sub : TrexRpcCommand)
    (calls : List Call) :
    (released (reach add sub calls).destructor).Nodup ∧
    (∀ h, h ∈ released (reach add sub calls).destructor ↔
      ∃ n, ((reach add sub calls).lookup n).1 = some h) ∧
    (∀ h n, ((reach add sub calls).lookup n).1 = some h →
      (released (reach add sub calls).destructor).count h = 1) ∧
    (released (reach add sub calls).destructor).length =
      ((reach add sub calls).m_rpc_cmd_table.filter (fun cmd => cmd.2.isSome)).length := by
  obtain ⟨hk, hn⟩ := reach_invariant add sub calls
  have hnd : (released (reach add sub calls).destructor).Nodup :=
    released_nodup (reach add sub calls).m_rpc_cmd_table hk hn
  have hmem : ∀ h, h ∈ released (reach add sub calls).destructor ↔
      ∃ n, ((reach add sub calls).lookup n).1 = some h := by
    intro h
    rw [mem_released_destructor]
    constructor
    · rintro ⟨k, hkm⟩
      exact ⟨k, by rw [lookup_fst]; exact (UnorderedMap.deref_eq_some _ k h hk).2 hkm⟩
    · rintro ⟨n, hl⟩
      rw [lookup_fst] at hl
      exact ⟨n, (UnorderedMap.deref_eq_some _ n h hk).1 hl⟩
  refine ⟨hnd, hmem, ?_, ?_⟩
  · intro h n hl
    exact List.count_eq_one_of_mem hnd ((hmem h).2 ⟨n, hl⟩)
  · exact released_length (reach add sub calls).m_rpc_cmd_table

/-- C8: for every table state and every two handlers of distinct names,
registering `h1` then `h2` and registering `h2` then `h1` give tables that return
the same `lookup` result for every name and whose destructors release the same
objects (the same objects the same number of times, in some order). -/
theorem registration_order_irrelevant (t : TrexRpcCommandsTable) (h1 h2 : TrexRpcCommand)
    (hn : h1.get_name ≠ h2.get_name) :
    (∀ m, (((t.register_command h1).register_command h2).lookup m).1 =
      (((t.register_command h2).register_command h1).lookup m).1) ∧
    List.Perm (released ((t.register_command h1).register_command h2).destructor)
      (released ((t.register_command h2).register_command h1).destructor) ∧
    (∀ h, h ∈ released ((t.register_command h1).register_command h2).destructor ↔
      h ∈ released ((t.register_command h2).register_command h1).destructor) := by
  have hp : List.Perm (released ((t.register_command h1).register_command h2).destructor)
      (released ((t.register_command h2).register_command h1).destructor) := by
    simp only [released, TrexRpcCommandsTable.destructor, TrexRpcCommandsTable.register_command]
    exact ((UnorderedMap.assign_comm t.m_rpc_cmd_table h1.get_name h2.get_name (some h1)
      (some h2) hn).map _).filterMap _
  refine ⟨?_, hp, fun h => hp.mem_iff⟩
  intro m
  rw [lookup_register, lookup_register, lookup_register, lookup_register]
  by_cases e1 : m = h1.get_name
  · have e2 : ¬ m = h2.get_name := fun e => hn (e1.symm.trans e)
    rw [if_neg e2, if_pos e1, if_pos e1]
  · rw [if_neg e1, if_neg e1]

theorem registration_order_irrelevant_witness :
    (∀ m, ((((TrexRpcCommandsTable.mk [("b", none)]).register_command
        ⟨3, "a"⟩).register_command ⟨4, "b"⟩).lookup m).1 =
      ((((TrexRpcCommandsTable.mk [("b", none)]).register_command
        ⟨4, "b"⟩).register_command ⟨3, "a"⟩).lookup m).1) ∧
    List.Perm
      (released (((TrexRpcCommandsTable.mk [("b", none)]).register_command
        ⟨3, "a"⟩).register_command ⟨4, "b"⟩).destructor)
      (released (((TrexRpcCommandsTable.mk [("b", none)]).register_command
        ⟨4, "b"⟩).register_command ⟨3, "a"⟩).destructor) ∧
    (∀ h, h ∈ released (((TrexRpcCommandsTable.mk [("b", none)]).register_command
        ⟨3, "a"⟩).register_command ⟨4, "b"⟩).destructor ↔
      h ∈ released (((TrexRpcCommandsTable.mk [("b", none)]).register_command
        ⟨4, "b"⟩).register_command ⟨3, "a"⟩).destructor) :=
  registration_order_irrelevant (TrexRpcCommandsTable.mk [("b", none)]) ⟨3, "a"⟩ ⟨4, "b"⟩
    (by decide)

/-- C9: the example scenario. For every handler `e` named "echo", the names
"echo" and "missing" differing from both baseline names (which differ from each
other): after construction and `register_command(e)`, `lookup("echo")` returns
`e`, then `lookup("missing")` returns the null pointer, and then the destructor
releases the two baseline objects and `e`, each exactly once, and nothing else. -/
theorem echo_scenario (add sub e : TrexRpcCommand)
    (he : e.get_name = "echo") (hdist : add.get_name ≠ sub.get_name)
    (ha1 : add.get_name ≠ "echo") (hs1 : sub.get_name ≠ "echo")
    (ha2 : add.get_name ≠ "missing") (hs2 : sub.get_name ≠ "missing") :
    (((TrexRpcCommandsTable.ctor add sub).register_command e).lookup "echo").1 = some e ∧
    ((((TrexRpcCommandsTable.ctor add sub).register_command e).lookup "echo").2.lookup
      "missing").1 = none ∧
    List.Perm
      (released (((((TrexRpcCommandsTable.ctor add sub).register_command e).lookup
        "echo").2.lookup "missing").2).destructor)
      [add, sub, e] ∧
    [add, sub, e].Nodup := by
  have hem : ¬ "echo" = "missing" := by decide
  have hdist2 : ¬ sub.get_name = add.get_name := fun h => hdist h.symm
  refine ⟨?_, ?_, ?_, ?_⟩
  · rw [lookup_register, if_pos he.symm]
  · rw [lookup_lookup, lookup_register, if_neg (by rw [he]; exact fun h => hem h.symm),
      lookup_ctor, if_neg (fun h => hs2 h.symm), if_neg (fun h => ha2 h.symm)]
  · have htab : ((((TrexRpcCommandsTable.ctor add sub).register_command e).lookup
        "echo").2.lookup "missing").2.m_rpc_cmd_table =
        [(add.get_name, some add), (sub.get_name, some sub), ("echo", some e),
          ("missing", none)] := by
      simp [TrexRpcCommandsTable.ctor, TrexRpcCommandsTable.register_command,
        TrexRpcCommandsTable.lookup, UnorderedMap.subscript, UnorderedMap.store, he, hdist,
        ha1, hs1, ha2, hs2, hem]
    simp [released, TrexRpcCommandsTable.destructor, htab]
  · have e1 : add ≠ sub := fun h => hdist (by rw [h])
    have e2 : add ≠ e := fun h => ha1 (by rw [h, he])
    have e3 : sub ≠ e := fun h => hs1 (by rw [h, he])
    simp [e1, e2, e3]

theorem echo_scenario_witness :
    (((TrexRpcCommandsTable.ctor ⟨1, "test_rpc_add"⟩ ⟨2, "test_rpc_sub"⟩).register_command
      ⟨3, "echo"⟩).lookup "echo").1 = some ⟨3, "echo"⟩ ∧
    ((((TrexRpcCommandsTable.ctor ⟨1, "test_rpc_add"⟩ ⟨2, "test_rpc_sub"⟩).register_command
      ⟨3, "echo"⟩).lookup "echo").2.lookup "missing").1 = none ∧
    List.Perm
      (released (((((TrexRpcCommandsTable.ctor ⟨1, "test_rpc_add"⟩
        ⟨2, "test_rpc_sub"⟩).register_command ⟨3, "echo"⟩).lookup "echo").2.lookup
          "missing").2).destructor)
      [⟨1, "test_rpc_add"⟩, ⟨2, "test_rpc_sub"⟩, ⟨3, "echo"⟩] ∧
    [(⟨1, "test_rpc_add"⟩ : TrexRpcCommand), ⟨2, "test_rpc_sub"⟩, ⟨3, "echo"⟩].Nodup :=
  echo_scenario ⟨1, "test_rpc_add"⟩ ⟨2, "test_rpc_sub"⟩ ⟨3, "echo"⟩ rfl
    (by decide) (by decide) (by decide) (by decide) (by decide)

/-! ## The effect of `lookup` on the table -/

/-- For a key that no entry has, `operator[]` adds one entry, holding the null
pointer, after the entries that were there. -/
theorem UnorderedMap.subscript_of_not_mem (m : UnorderedMap) (key : String)
    (h : key ∉ m.map Prod.fst) : m.subscript key = m ++ [(key, none)] := by
  induction m with
  | nil => rfl
  | cons e rest ih =>
    obtain ⟨k0, v0⟩ := e
    simp only [List.map_cons, List.mem_cons, not_or] at h
    have h0 : ¬ k0 = key := fun e => h.1 e.symm
    simp [UnorderedMap.subscript, h0, ih h.2]

/-- For a key that some entry has, `operator[]` leaves the map as it is. -/
theorem UnorderedMap.subscript_of_mem (m : UnorderedMap) (key : String)
    (h : key ∈ m.map Prod.fst) : m.subscript key = m := by
  induction m with
  | nil => simp at h
  | cons e rest ih =>
    obtain ⟨k0, v0⟩ := e
    by_cases h0 : k0 = key
    · simp [UnorderedMap.subscript, h0]
    · have h1 : key ∈ rest.map Prod.fst := by
        simp only [List.map_cons, List.mem_cons] at h
        rcases h with h | h
        · exact absurd h.symm h0
        · exact h
      simp [UnorderedMap.subscript, h0, ih h1]

/-- Reading a key that no entry has gives the null pointer. -/
theorem UnorderedMap.deref_of_not_mem (m : UnorderedMap) (key : String)
    (h : key ∉ m.map Prod.fst) : m.deref key = none := by
  induction m with
  | nil => rfl
  | cons e rest ih =>
    obtain ⟨k0, v0⟩ := e
    simp only [List.map_cons, List.mem_cons, not_or] at h
    have h0 : ¬ k0 = key := fun e => h.1 e.symm
    simp [UnorderedMap.deref, h0, ih h.2]

/-- Applying `operator[]` twice with the same key is the same as applying it once. -/
theorem UnorderedMap.subscript_subscript (m : UnorderedMap) (key : String) :
    (m.subscript key).subscript key = m.subscript key := by
  apply UnorderedMap.subscript_of_mem
  rw [UnorderedMap.keys_subscript]
  split_ifs with h
  · exact h
  · simp

/-! ## Claims on `lookup` and on the stored names -/

/-- C11: `lookup` is deterministic and retrying it does not change the outcome:
for every table state `t` and all names `n` and `m`, equal or not, `lookup(m)`
after `lookup(n)` returns what `lookup(m)` returns on `t`; in particular a
repeated `lookup(n)` returns what the first one returned, and it leaves the table
as the first one left it. -/
theorem lookup_retry_same_outcome (t : TrexRpcCommandsTable) (n m : String) :
    ((t.lookup n).2.lookup m).1 = (t.lookup m).1 ∧
    ((t.lookup n).2.lookup n).1 = (t.lookup n).1 ∧
    ((t.lookup n).2.lookup n).2 = (t.lookup n).2 := by
  refine ⟨lookup_lookup t n m, lookup_lookup t n n, ?_⟩
  simp [TrexRpcCommandsTable.lookup, UnorderedMap.subscript_subscript]

/-- C12: `lookup` is not read-only. For every table state `t`: when no entry of
`t` has the key `n`, `lookup(n)` returns the null pointer and leaves a table with
the entries of `t` and one more entry, `n` mapped to the null pointer (one key
more, every other name mapped as before); when some entry of `t` has the key `n`,
`lookup(n)` leaves the table unchanged. -/
theorem lookup_adds_null_entry_on_miss (t : TrexRpcCommandsTable) (n : String) :
    (n ∉ t.m_rpc_cmd_table.map Prod.fst →
      (t.lookup n).1 = none ∧
      (n, none) ∈ (t.lookup n).2.m_rpc_cmd_table ∧
      List.Perm (t.lookup n).2.m_rpc_cmd_table ((n, none) :: t.m_rpc_cmd_table) ∧
      ((t.lookup n).2.m_rpc_cmd_table.map Prod.fst).length =
        (t.m_rpc_cmd_table.map Prod.fst).length + 1 ∧
      (∀ k, k ≠ n → (t.lookup n).2.m_rpc_cmd_table.deref k = t.m_rpc_cmd_table.deref k) ∧
      (t.lookup n).2 ≠ t) ∧
    (n ∈ t.m_rpc_cmd_table.map Prod.fst → (t.lookup n).2 = t) := by
  constructor
  · intro h
    have htab : (t.lookup n).2.m_rpc_cmd_table = t.m_rpc_cmd_table ++ [(n, none)] := by
      simp [TrexRpcCommandsTable.lookup, UnorderedMap.subscript_of_not_mem _ _ h]
    refine ⟨?_, ?_, ?_, ?_, ?_, ?_⟩
    · rw [lookup_fst]
      exact UnorderedMap.deref_of_not_mem _ _ h
    · rw [htab]
      simp
    · rw [htab]
      exact List.perm_append_singleton _ _
    · rw [htab]
      simp
    · intro k _
      simp [TrexRpcCommandsTable.lookup, UnorderedMap.deref_subscript]
    · intro e
      rw [e] at htab
      have := congrArg List.length htab
      simp at this
  · intro h
    simp [TrexRpcCommandsTable.lookup, UnorderedMap.subscript_of_mem _ _ h]

theorem lookup_adds_null_entry_on_miss_witness :
    ((TrexRpcCommandsTable.ctor ⟨1, "test_rpc_add"⟩ ⟨2, "test_rpc_sub"⟩).lookup
        "missing").2.m_rpc_cmd_table.Perm
      (("missing", none) ::
        (TrexRpcCommandsTable.ctor ⟨1, "test_rpc_add"⟩ ⟨2, "test_rpc_sub"⟩).m_rpc_cmd_table) ∧
    ((TrexRpcCommandsTable.ctor ⟨1, "test_rpc_add"⟩ ⟨2, "test_rpc_sub"⟩).lookup
        "test_rpc_add").2 = TrexRpcCommandsTable.ctor ⟨1, "test_rpc_add"⟩ ⟨2, "test_rpc_sub"⟩ :=
  ⟨((lookup_adds_null_entry_on_miss
      (TrexRpcCommandsTable.ctor ⟨1, "test_rpc_add"⟩ ⟨2, "test_rpc_sub"⟩) "missing").1
        (by decide)).2.2.1,
    (lookup_adds_null_entry_on_miss
      (TrexRpcCommandsTable.ctor ⟨1, "test_rpc_add"⟩ ⟨2, "test_rpc_sub"⟩) "test_rpc_add").2
        (by decide)⟩

/-- C13: in every state reached from construction by `register_command` and
`lookup` calls, every non-null pointer in the table is stored under the name of
the command it points to: a command that `lookup(n)` returns has the name `n`;
so no command is stored under two different keys. -/
theorem stored_under_own_name (add sub : TrexRpcCommand) (calls : List Call) :
    (∀ n h, ((reach add sub calls).lookup n).1 = some h → h.get_name = n) ∧
    (∀ k h, (k, some h) ∈ (reach add sub calls).m_rpc_cmd_table → h.get_name = k) ∧
    (∀ k1 k2 h, (k1, some h) ∈ (reach add sub calls).m_rpc_cmd_table →
      (k2, some h) ∈ (reach add sub calls).m_rpc_cmd_table → k1 = k2) ∧
    (∀ n1 n2 h, ((reach add sub calls).lookup n1).1 = some h →
      ((reach add sub calls).lookup n2).1 = some h → n1 = n2) := by
  obtain ⟨hk, hn⟩ := reach_invariant add sub calls
  have hl : ∀ n h, ((reach add sub calls).lookup n).1 = some h → h.get_name = n := by
    intro n h e
    rw [lookup_fst] at e
    exact hn n h ((UnorderedMap.deref_eq_some _ n h hk).1 e)
  refine ⟨hl, hn, ?_, ?_⟩
  · intro k1 k2 h e1 e2
    rw [← hn k1 h e1, ← hn k2 h e2]
  · intro n1 n2 h e1 e2
    rw [← hl n1 h e1, ← hl n2 h e2]

theorem stored_under_own_name_witness :
    ((reach ⟨1, "test_rpc_add"⟩ ⟨2, "test_rpc_sub"⟩
      [Call.lookup "missing", Call.register_command ⟨3, "echo"⟩, Call.lookup "echo"]).lookup
        "echo").1 = some ⟨3, "echo"⟩ ∧
    TrexRpcCommand.get_name ⟨3, "echo"⟩ = "echo" :=
  ⟨by decide,
    (stored_under_own_name ⟨1, "test_rpc_add"⟩ ⟨2, "test_rpc_sub"⟩
      [Call.lookup "missing", Call.register_command ⟨3, "echo"⟩, Call.lookup "echo"]).1
        "echo" ⟨3, "echo"⟩ (by decide)⟩
